import Mathlib

/-!
Verification of the fcitx5 ASR input-method addon (`src/asrime.cpp`).

Byte streams are embedded as `List Char`.  The pending-buffer drain loop of
`ASRNativeEngine::onCommitReadable` is embedded as `drain`, a literal
translation of the repeated "find first newline / cut prefix" loop; a
structurally recursive equivalent `splitNl` is provided for computation and
induction, together with a proof `drain_eq_splitNl` that the two agree.
-/

namespace Asrime

/-- Embedding of `pending_.find('\n')`: index of the first newline, `none`
for `npos`. -/
def findNl : List Char → Option Nat
  | [] => none
  | c :: rest => if c = '\n' then some 0 else (findNl rest).map (· + 1)

/-- Embedding of the drain loop of `onCommitReadable`: repeatedly find the
first newline in the pending buffer, extract the prefix before it as a
candidate line (`pending_.substr(0, pos)`), and continue on the remainder
(`pending_.erase(0, pos + 1)`).  Returns the extracted raw lines in order
and the final pending buffer. -/
def drain (pending : List Char) : List (List Char) × List Char :=
  match h : findNl pending with
  | none => ([], pending)
  | some pos =>
      (pending.take pos :: (drain (pending.drop (pos + 1))).1,
       (drain (pending.drop (pos + 1))).2)
termination_by pending.length
decreasing_by
  have H : ∀ (u : List Char) (q : Nat), findNl u = some q → q < u.length := by
    intro u
    induction u with
    | nil => intro q hq; simp [findNl] at hq
    | cons c rest ih =>
      intro q hq
      by_cases hc : c = '\n'
      · simp [findNl, hc] at hq
        have hq0 : q = 0 := by omega
        subst hq0
        simp
      · simp [findNl, hc] at hq
        obtain ⟨p, hp, hpe⟩ := hq
        have := ih p hp
        simp
        omega
  simp only [List.length_drop]
  have := H pending pos h
  omega

/-- Structurally recursive formulation of the same newline split; used for
computation and induction. -/
def splitNl : List Char → List (List Char) × List Char
  | [] => ([], [])
  | c :: rest =>
      let r := splitNl rest
      if c = '\n' then ([] :: r.1, r.2)
      else
        match r.1 with
        | [] => ([], c :: r.2)
        | l :: ls => ((c :: l) :: ls, r.2)

/-- Embedding of `if (!line.empty() && line.back() == '\r') line.pop_back();`
in `onCommitReadable`: strip one trailing carriage return from a candidate
line. -/
def stripCR (line : List Char) : List Char :=
  match line.getLast? with
  | some c => if c = '\r' then line.dropLast else line
  | none => line

/-- Line-extraction phase of one `onCommitReadable` invocation: the bytes
read this invocation are appended to the pending buffer, then complete lines
are extracted and carriage-return-stripped.  Returns the candidate lines
passed to `commitLine`, in order, and the new pending buffer. -/
def processChunk (pending chunk : List Char) : List (List Char) × List Char :=
  ((drain (pending ++ chunk)).1.map stripCR, (drain (pending ++ chunk)).2)

/-- Iterated `processChunk` over successive read events, accumulating the
candidate lines of every invocation. -/
def processChunks : List (List Char) → List (List Char) → List Char →
    List (List Char) × List Char
  | [], acc, pending => (acc, pending)
  | chunk :: rest, acc, pending =>
      processChunks rest (acc ++ (processChunk pending chunk).1)
        (processChunk pending chunk).2

/-- Opaque input-context handles (`fcitx::InputContext *`), compared only by
identity; `none` models the null pointer. -/
abbrev ICtx := Nat

/-- Engine state of `ASRNativeEngine`, together with observation logs:
`sent` records the arguments of every `sendCommand` call and `committed`
records every `ic->commitString(text)` call. -/
structure EngineState where
  activeIC : Option ICtx
  pending : List Char
  toggleKeys : List (List Char)
  sent : List (List Char)
  committed : List (ICtx × List Char)

/-- Embedding of `activate`: `activeIC_ = event.inputContext();`. -/
def activate (s : EngineState) (ic : ICtx) : EngineState :=
  { s with activeIC := some ic }

/-- Embedding of `deactivate`:
`if (activeIC_ == event.inputContext()) activeIC_ = nullptr;`. -/
def deactivate (s : EngineState) (ic : ICtx) : EngineState :=
  if s.activeIC = some ic then { s with activeIC := none } else s

/-- Embedding of `reset`: the override has an empty body. -/
def reset (s : EngineState) : EngineState := s

/-- Embedding of `fcitx::Key("Shift+F8")`, the hard-coded command-mode
shortcut.  Keys are embedded as their normalized descriptor strings. -/
def commandModeKey : List Char := "Shift+F8".toList

/-- Embedding of the `"command\n"` token passed to `sendCommand`. -/
def commandTokenLine : List Char := "command\n".toList

/-- Embedding of the `"toggle\n"` token passed to `sendCommand`. -/
def toggleTokenLine : List Char := "toggle\n".toList

/-- Embedding of `keyEvent`: releases return immediately; a press stores the
event's context in `activeIC_`, then checks the command-mode key exactly
(`key().normalize().check(Key("Shift+F8"))`), else membership in the toggle
list (`checkKeyList(toggleKeys_)`); a match sends the token and consumes the
key (`filterAndAccept`).  Returns the new state and whether the key was
consumed. -/
def keyEvent (s : EngineState) (ic : ICtx) (key : List Char)
    (isRelease : Bool) : EngineState × Bool :=
  if isRelease then (s, false)
  else
    let s1 := { s with activeIC := some ic }
    if key = commandModeKey then
      ({ s1 with sent := s1.sent ++ [commandTokenLine] }, true)
    else if key ∈ s1.toggleKeys then
      ({ s1 with sent := s1.sent ++ [toggleTokenLine] }, true)
    else (s1, false)

/-- Embedding of `commitLine`: empty lines are skipped; with no active
target the line is discarded; otherwise `ic->commitString(text)` is
recorded. -/
def commitLine (s : EngineState) (text : List Char) : EngineState :=
  if text = [] then s
  else
    match s.activeIC with
    | none => s
    | some ic => { s with committed := s.committed ++ [(ic, text)] }

/-- Embedding of `onCommitReadable`: `chunk` is the concatenation of the
bytes obtained by the non-blocking read loop this invocation; they are
appended to the pending buffer, then each complete line is extracted,
carriage-return-stripped and passed to `commitLine`. -/
def onCommitReadable (s : EngineState) (chunk : List Char) : EngineState :=
  ((processChunk s.pending chunk).1).foldl commitLine
    { s with pending := (processChunk s.pending chunk).2 }

/-- Successive readable events. -/
def readEvents (s : EngineState) (chunks : List (List Char)) : EngineState :=
  chunks.foldl onCommitReadable s

/-- Embedding of the built-in default hotkey table (`defaultHotkeys`). -/
def defaultHotkeys : List (List Char) :=
  ["Control+Alt+v".toList, "Control+Alt+r".toList,
   "F8".toList, "Shift+F8".toList]

/-- Whitespace characters recognized by `std::isspace` in the default
locale. -/
def isSpaceChar (c : Char) : Bool :=
  c = ' ' || c = '\t' || c = '\n' || c = '\x0b' || c = '\x0c' || c = '\r'

/-- Embedding of `trim`: erase leading whitespace, then trailing
whitespace. -/
def trim (s : List Char) : List Char :=
  ((s.dropWhile isSpaceChar).reverse.dropWhile isSpaceChar).reverse

/-- Embedding of the `getline` loop of `loadHotkeys`: trim each line, skip
blank lines and lines starting with `#`, keep descriptors accepted by the
key parser (`fcitx::Key(line).isValid()`, abstracted as the oracle
`isValid`). -/
def parseHotkeyLines (isValid : List Char → Bool) :
    List (List Char) → List (List Char) → List (List Char)
  | keys, [] => keys
  | keys, line :: rest =>
      if trim line = [] ∨ (trim line).head? = some '#' then
        parseHotkeyLines isValid keys rest
      else if isValid (trim line) then
        parseHotkeyLines isValid (keys ++ [trim line]) rest
      else parseHotkeyLines isValid keys rest

/-- Embedding of `loadHotkeys`: `file = none` models "no path resolves or
the file cannot be opened" (both return the defaults); `some lines` models
an opened file with the given lines.  When zero valid descriptors were
parsed the defaults are returned instead of an empty table. -/
def loadHotkeys (isValid : List Char → Bool)
    (file : Option (List (List Char))) : List (List Char) :=
  match file with
  | none => defaultHotkeys
  | some lines =>
      let keys := parseHotkeyLines isValid [] lines
      if keys ≠ [] then keys else defaultHotkeys

/-- Descriptors of a hotkey file that survive the `loadHotkeys` loop:
trimmed, not blank, not a comment, accepted by the key parser. -/
def validDescriptors (isValid : List Char → Bool)
    (lines : List (List Char)) : List (List Char) :=
  (lines.map trim).filter
    (fun t => !(decide (t = [] ∨ t.head? = some '#')) && isValid t)

/-- Commit calls a list of candidate lines produces, given the active-target
reference: with no target nothing is committed, otherwise each non-empty
line is committed to the target in order. -/
def commitsOf (a : Option ICtx) (lines : List (List Char)) :
    List (ICtx × List Char) :=
  match a with
  | none => []
  | some ic => (lines.filter (fun l => l ≠ [])).map (fun l => (ic, l))

/-- Engine state directly after construction, given the loaded hotkey
table: no active target, empty pending buffer, no observed calls. -/
def initEngine (keys : List (List Char)) : EngineState :=
  { activeIC := none, pending := [], toggleKeys := keys,
    sent := [], committed := [] }

/-- Filesystem object at the FIFO path: a FIFO with its permission bits, or
an existing object of any other kind. -/
inductive FsObj
  | fifo (mode : Nat)
  | other
deriving DecidableEq

/-- Errors `mkfifo` can report in the model: `EEXIST`, or any other
errno. -/
inductive MkErr
  | eexist
  | eother
deriving DecidableEq

/-- Model of the `mkfifo(2)` syscall: creating a FIFO at an occupied path
fails with `EEXIST`; at a free path it creates `fifo mode`, unless the
failure `inj` (a benign race reporting `EEXIST`, or any other error) is
injected. -/
def mkfifoSys (obj : Option FsObj) (mode : Nat) (inj : Option MkErr) :
    Option MkErr × Option FsObj :=
  match obj with
  | some o => (some MkErr.eexist, some o)
  | none =>
      match inj with
      | none => (none, some (FsObj.fifo mode))
      | some e => (some e, none)

/-- Embedding of `ensureFifo`: `stat` the path; an existing FIFO succeeds
immediately; any other existing object is `unlink`ed; then
`mkfifo(path, 0600)` succeeding or failing with `EEXIST` is success, any
other failure is failure.  Returns the result and the object then at the
path. -/
def ensureFifo (obj : Option FsObj) (inj : Option MkErr) :
    Bool × Option FsObj :=
  match obj with
  | some (FsObj.fifo m) => (true, some (FsObj.fifo m))
  | _ =>
      match mkfifoSys none 0o600 inj with
      | (none, o) => (true, o)
      | (some MkErr.eexist, o) => (true, o)
      | (some MkErr.eother, o) => (false, o)

/-- Observable outcome of one `sendCommand` call: the buffers passed to
`write`, in order, and whether the descriptor was closed. -/
structure SendOutcome where
  writes : List (List Char)
  closed : Bool
deriving DecidableEq

/-- Embedding of `sendCommand`: open the command FIFO for writing,
non-blocking (`openOk` models whether `open` succeeds; it fails when the
daemon holds no open reader); on failure log a warning and return.  On
success make exactly one `write` attempt with the whole token — its result
`writeRes` affects only logging — and always `close` the descriptor. -/
def sendCommand (openOk : Bool) (writeRes : Int) (cmd : List Char) :
    SendOutcome :=
  if openOk then
    let _log := writeRes < 0
    { writes := [cmd], closed := true }
  else { writes := [], closed := false }

theorem findNl_lt {u : List Char} {pos : Nat} (h : findNl u = some pos) :
    pos < u.length := by
  induction u generalizing pos with
  | nil => simp [findNl] at h
  | cons c rest ih =>
    by_cases hc : c = '\n'
    · simp [findNl, hc] at h
      have hp0 : pos = 0 := by omega
      subst hp0
      simp
    · simp [findNl, hc] at h
      obtain ⟨p, hp, hpe⟩ := h
      have := ih hp
      simp
      omega

theorem splitNl_of_findNl_none {u : List Char} (h : findNl u = none) :
    splitNl u = ([], u) := by
  induction u with
  | nil => rfl
  | cons c rest ih =>
    by_cases hc : c = '\n'
    · simp [findNl, hc] at h
    · simp [findNl, hc] at h
      simp [splitNl, hc, ih h]

theorem splitNl_of_findNl_some {u : List Char} {pos : Nat}
    (h : findNl u = some pos) :
    splitNl u = (u.take pos :: (splitNl (u.drop (pos + 1))).1,
                 (splitNl (u.drop (pos + 1))).2) := by
  induction u generalizing pos with
  | nil => simp [findNl] at h
  | cons c rest ih =>
    by_cases hc : c = '\n'
    · simp [findNl, hc] at h
      subst h
      simp [splitNl, hc]
    · simp [findNl, hc] at h
      obtain ⟨p, hp, hpe⟩ := h
      subst hpe
      simp only [splitNl, hc, if_false, ih hp, List.take_succ_cons,
        List.drop_succ_cons]

theorem drain_eq_splitNl (u : List Char) : drain u = splitNl u := by
  induction u using drain.induct with
  | case1 u h => rw [drain, h, splitNl_of_findNl_none h]
  | case2 u pos h ih =>
    rw [drain]
    split
    · simp_all
    · rename_i pos2 h2
      rw [h] at h2
      injection h2 with hpe
      subst hpe
      rw [splitNl_of_findNl_some h, ih]

theorem splitNl_fst_nil : ∀ {u : List Char}, (splitNl u).1 = [] → (splitNl u).2 = u := by
  intro u
  induction u with
  | nil => intro _; rfl
  | cons c rest ih =>
    intro h
    by_cases hc : c = '\n'
    · simp [splitNl, hc] at h
    · rcases h1 : (splitNl rest).1 with _ | ⟨l, ls⟩
      · simp [splitNl, hc, h1, ih h1]
      · simp [splitNl, hc, h1] at h

theorem findNl_splitNl_snd (u : List Char) : findNl (splitNl u).2 = none := by
  induction u with
  | nil => rfl
  | cons c rest ih =>
    by_cases hc : c = '\n'
    · simp [splitNl, hc, ih]
    · rcases h1 : (splitNl rest).1 with _ | ⟨l, ls⟩
      · simp [splitNl, hc, h1, findNl, ih]
      · simp [splitNl, hc, h1, ih]

theorem splitNl_append (u v : List Char) :
    splitNl (u ++ v) =
      ((splitNl u).1 ++ (splitNl ((splitNl u).2 ++ v)).1,
       (splitNl ((splitNl u).2 ++ v)).2) := by
  induction u with
  | nil => simp [splitNl]
  | cons c rest ih =>
    by_cases hc : c = '\n'
    · simp [splitNl, hc, ih]
    · rcases h1 : (splitNl rest).1 with _ | ⟨l, ls⟩
      · have h2 := splitNl_fst_nil h1
        simp [splitNl, hc, h1, h2]
      · simp [splitNl, hc, h1, ih]

theorem processChunk_append (pending c1 c2 : List Char) :
    processChunk pending (c1 ++ c2) =
      ((processChunk pending c1).1 ++
         (processChunk (processChunk pending c1).2 c2).1,
       (processChunk (processChunk pending c1).2 c2).2) := by
  simp only [processChunk, drain_eq_splitNl, ← List.append_assoc,
    splitNl_append (pending ++ c1) c2, List.map_append]

theorem findNl_processChunk_snd (pending chunk : List Char) :
    findNl (processChunk pending chunk).2 = none := by
  simp [processChunk, drain_eq_splitNl, findNl_splitNl_snd]

theorem processChunks_flatten (chunks : List (List Char)) :
    ∀ acc pending, findNl pending = none →
      processChunks chunks acc pending =
        (acc ++ (processChunk pending chunks.flatten).1,
         (processChunk pending chunks.flatten).2) := by
  induction chunks with
  | nil =>
    intro acc pending h
    simp [processChunks, processChunk, drain_eq_splitNl,
      splitNl_of_findNl_none h]
  | cons chunk rest ih =>
    intro acc pending h
    simp only [processChunks, List.flatten_cons]
    rw [ih _ _ (findNl_processChunk_snd pending chunk),
      processChunk_append pending chunk rest.flatten]
    simp [List.append_assoc]

theorem commitsOf_append (a : Option ICtx) (l1 l2 : List (List Char)) :
    commitsOf a (l1 ++ l2) = commitsOf a l1 ++ commitsOf a l2 := by
  cases a <;> simp [commitsOf]

theorem commitLine_eq (s : EngineState) (t : List Char) :
    commitLine s t = { s with committed := s.committed ++ commitsOf s.activeIC [t] } := by
  obtain ⟨a, p, k, sn, cm⟩ := s
  unfold commitLine
  by_cases ht : t = []
  · cases a <;> simp [ht, commitsOf]
  · cases a <;> simp [ht, commitsOf]

theorem foldl_commitLine (lines : List (List Char)) : ∀ s : EngineState,
    lines.foldl commitLine s =
      { s with committed := s.committed ++ commitsOf s.activeIC lines } := by
  induction lines with
  | nil =>
    intro s
    obtain ⟨a, p, k, sn, cm⟩ := s
    cases a <;> simp [commitsOf]
  | cons l ls ih =>
    intro s
    rw [List.foldl_cons, ih, commitLine_eq]
    have hc : ([l] ++ ls : List (List Char)) = l :: ls := rfl
    rw [← hc, commitsOf_append]
    simp [List.append_assoc]

theorem onCommitReadable_eq (s : EngineState) (chunk : List Char) :
    onCommitReadable s chunk =
      { s with pending := (processChunk s.pending chunk).2,
               committed := s.committed ++
                 commitsOf s.activeIC (processChunk s.pending chunk).1 } := by
  unfold onCommitReadable
  rw [foldl_commitLine]

theorem readEvents_eq (chunks : List (List Char)) : ∀ s : EngineState,
    findNl s.pending = none →
    readEvents s chunks = onCommitReadable s chunks.flatten := by
  induction chunks with
  | nil =>
    intro s h
    have hp : processChunk s.pending [] = ([], s.pending) := by
      simp [processChunk, drain_eq_splitNl, splitNl_of_findNl_none h]
    obtain ⟨a, p, k, sn, cm⟩ := s
    simp only [processChunk] at hp
    simp only [readEvents, List.foldl_nil, onCommitReadable_eq, List.flatten_nil,
      processChunk, hp]
    cases a <;> simp [commitsOf]
  | cons c cs ih =>
    intro s h
    have step : readEvents s (c :: cs) = readEvents (onCommitReadable s c) cs := by
      simp [readEvents]
    rw [step, ih _ (by rw [onCommitReadable_eq]; exact findNl_processChunk_snd _ _)]
    simp only [onCommitReadable_eq, List.flatten_cons,
      processChunk_append s.pending c cs.flatten, commitsOf_append,
      List.append_assoc]

theorem findNl_eq_none_iff (u : List Char) : findNl u = none ↔ '\n' ∉ u := by
  induction u with
  | nil => simp [findNl]
  | cons c rest ih =>
    by_cases hc : c = '\n'
    · subst hc
      simp [findNl]
    · simp only [findNl, hc, if_false, Option.map_eq_none', ih,
        List.mem_cons]
      constructor
      · intro h hmem
        rcases hmem with hmem | hmem
        · exact hc hmem.symm
        · exact h hmem
      · intro h hmem
        exact h (Or.inr hmem)

theorem parseHotkeyLines_eq (isValid : List Char → Bool)
    (lines : List (List Char)) :
    ∀ keys : List (List Char),
      parseHotkeyLines isValid keys lines =
        keys ++ validDescriptors isValid lines := by
  induction lines with
  | nil => intro keys; simp [parseHotkeyLines, validDescriptors]
  | cons line rest ih =>
    intro keys
    by_cases h1 : trim line = [] ∨ (trim line).head? = some '#'
    · simp only [parseHotkeyLines, h1, if_true, ih, validDescriptors,
        List.map_cons, List.filter_cons]
      simp [h1]
    · by_cases h2 : isValid (trim line)
      · simp only [parseHotkeyLines, h1, if_false, h2, if_true, ih,
          validDescriptors, List.map_cons, List.filter_cons]
        simp [h1, h2, List.append_assoc]
      · simp only [parseHotkeyLines, h1, if_false, h2, ih,
          validDescriptors, List.map_cons, List.filter_cons]
        simp [h1, h2]

/-- C1: for every sequence of byte chunks delivered to the read-event
handler in arbitrarily fragmented reads, the sequence of lines passed to
the commit step and the final pending buffer equal those obtained by
concatenating all bytes first and splitting once on newline; at the engine
level, any fragmented delivery equals one concatenated delivery — chunk
boundaries are transparent. -/
theorem chunk_boundaries_transparent (s : EngineState)
    (chunks : List (List Char)) (h : findNl s.pending = none) :
    readEvents s chunks = onCommitReadable s chunks.flatten ∧
    processChunks chunks [] [] =
      ((drain chunks.flatten).1.map stripCR, (drain chunks.flatten).2) := by
  constructor
  · exact readEvents_eq chunks s h
  · rw [processChunks_flatten chunks [] [] rfl]
    simp [processChunk]

/-- Witness for `chunk_boundaries_transparent`: one-byte fragments, a chunk
splitting exactly on a newline, and a chunk with an interior newline. -/
theorem chunk_boundaries_transparent_witness :
    readEvents (initEngine defaultHotkeys)
        ["a".toList, "b\nc".toList, "\n".toList, "d".toList]
      = onCommitReadable (initEngine defaultHotkeys)
          (["a".toList, "b\nc".toList, "\n".toList, "d".toList]).flatten ∧
    processChunks ["a".toList, "b\nc".toList, "\n".toList, "d".toList] [] [] =
      ((drain (["a".toList, "b\nc".toList, "\n".toList, "d".toList]).flatten).1.map stripCR,
       (drain (["a".toList, "b\nc".toList, "\n".toList, "d".toList]).flatten).2) :=
  chunk_boundaries_transparent (initEngine defaultHotkeys)
    ["a".toList, "b\nc".toList, "\n".toList, "d".toList] rfl

/-- C2 counterexample: `Shift+F8` is one of the four built-in default
bindings, yet pressing it with the default table loaded sends the command
token, not the toggle token. -/
theorem defaultHotkeys_not_all_toggle :
    "Shift+F8".toList ∈ defaultHotkeys ∧
    (keyEvent (initEngine defaultHotkeys) 0 "Shift+F8".toList false).1.sent
        = [commandTokenLine] ∧
    commandTokenLine ≠ toggleTokenLine := by
  decide

/-- C2 amended: when the default table is loaded, pressing any of the four
default combinations sends a command token and consumes the key; the three
combinations other than `Shift+F8` send the toggle token, while `Shift+F8`
is matched first by the exact command-mode check and sends the command
token. -/
theorem defaultHotkeys_dispatch (s : EngineState) (ic : ICtx)
    (key : List Char) (hs : s.toggleKeys = defaultHotkeys)
    (hk : key ∈ defaultHotkeys) :
    (keyEvent s ic key false).2 = true ∧
    (key ≠ commandModeKey →
      (keyEvent s ic key false).1.sent = s.sent ++ [toggleTokenLine]) ∧
    (key = commandModeKey →
      (keyEvent s ic key false).1.sent = s.sent ++ [commandTokenLine]) := by
  by_cases hc : key = commandModeKey
  · simp [keyEvent, hc]
  · have hmem : key ∈ s.toggleKeys := by rw [hs]; exact hk
    simp [keyEvent, hc, hmem]

/-- Witness for `defaultHotkeys_dispatch` at the default binding `F8`. -/
theorem defaultHotkeys_dispatch_witness :
    (keyEvent (initEngine defaultHotkeys) 0 "F8".toList false).2 = true ∧
    ("F8".toList ≠ commandModeKey →
      (keyEvent (initEngine defaultHotkeys) 0 "F8".toList false).1.sent
        = (initEngine defaultHotkeys).sent ++ [toggleTokenLine]) ∧
    ("F8".toList = commandModeKey →
      (keyEvent (initEngine defaultHotkeys) 0 "F8".toList false).1.sent
        = (initEngine defaultHotkeys).sent ++ [commandTokenLine]) :=
  defaultHotkeys_dispatch (initEngine defaultHotkeys) 0 "F8".toList rfl
    (by decide)

/-- C3: shortcut loading keeps exactly the valid descriptors in file order
(concretely, a file of 3 valid and 2 malformed lines yields exactly those 3
bindings in order); a file with zero valid descriptors, no resolvable path,
or an unopenable file all yield the built-in default set; the table is
never empty. -/
theorem loadHotkeys_spec (isValid : List Char → Bool) :
    loadHotkeys isValid none = defaultHotkeys ∧
    (∀ lines, loadHotkeys isValid (some lines) =
        if validDescriptors isValid lines = [] then defaultHotkeys
        else validDescriptors isValid lines) ∧
    (∀ file, loadHotkeys isValid file ≠ []) ∧
    loadHotkeys (fun t => !(t.contains '!'))
        (some ["F8".toList, "bad !".toList, "Control+Alt+v".toList,
               "als!o bad".toList, "F9".toList])
      = ["F8".toList, "Control+Alt+v".toList, "F9".toList] := by
  refine ⟨rfl, ?_, ?_, ?_⟩
  · intro lines
    simp only [loadHotkeys]
    rw [parseHotkeyLines_eq isValid lines []]
    simp only [List.nil_append]
    by_cases h : validDescriptors isValid lines = []
    · simp [h]
    · simp [h]
  · intro file
    rcases file with _ | lines
    · simp [loadHotkeys, defaultHotkeys]
    · unfold loadHotkeys
      by_cases h : parseHotkeyLines isValid [] lines = []
      · simp [h, defaultHotkeys]
      · simp [h]
  · decide

/-- C4: key-release events do nothing and pass through; a key-press first
sets the active target to the event's originating context, then matches the
command-mode shortcut exactly, else the toggle set by membership; a match
sends the corresponding token and consumes the key; a non-matching key
passes through unmodified with no command sent. -/
theorem keyEvent_dispatch (s : EngineState) (ic : ICtx) (key : List Char) :
    keyEvent s ic key true = (s, false) ∧
    (keyEvent s ic key false).1.activeIC = some ic ∧
    (key = commandModeKey →
      keyEvent s ic key false =
        ({ s with activeIC := some ic,
                  sent := s.sent ++ [commandTokenLine] }, true)) ∧
    (key ≠ commandModeKey → key ∈ s.toggleKeys →
      keyEvent s ic key false =
        ({ s with activeIC := some ic,
                  sent := s.sent ++ [toggleTokenLine] }, true)) ∧
    (key ≠ commandModeKey → key ∉ s.toggleKeys →
      keyEvent s ic key false = ({ s with activeIC := some ic }, false)) := by
  refine ⟨rfl, ?_, ?_, ?_, ?_⟩
  · by_cases hc : key = commandModeKey
    · simp [keyEvent, hc]
    · by_cases hm : key ∈ s.toggleKeys <;> simp [keyEvent, hc, hm]
  · intro hc
    simp [keyEvent, hc]
  · intro hc hm
    simp [keyEvent, hc, hm]
  · intro hc hm
    simp [keyEvent, hc, hm]

/-- Witness for `keyEvent_dispatch` at an unbound key and concrete state. -/
theorem keyEvent_dispatch_witness :
    keyEvent (initEngine defaultHotkeys) 3 "q".toList true
        = (initEngine defaultHotkeys, false) ∧
    (keyEvent (initEngine defaultHotkeys) 3 "q".toList false).1.activeIC = some 3 ∧
    ("q".toList = commandModeKey →
      keyEvent (initEngine defaultHotkeys) 3 "q".toList false =
        ({ initEngine defaultHotkeys with
            activeIC := some 3,
            sent := (initEngine defaultHotkeys).sent ++ [commandTokenLine] }, true)) ∧
    ("q".toList ≠ commandModeKey → "q".toList ∈ (initEngine defaultHotkeys).toggleKeys →
      keyEvent (initEngine defaultHotkeys) 3 "q".toList false =
        ({ initEngine defaultHotkeys with
            activeIC := some 3,
            sent := (initEngine defaultHotkeys).sent ++ [toggleTokenLine] }, true)) ∧
    ("q".toList ≠ commandModeKey → "q".toList ∉ (initEngine defaultHotkeys).toggleKeys →
      keyEvent (initEngine defaultHotkeys) 3 "q".toList false =
        ({ initEngine defaultHotkeys with activeIC := some 3 }, false)) :=
  keyEvent_dispatch (initEngine defaultHotkeys) 3 "q".toList

/-- C5: when no target is active every complete line delivered is
discarded: nothing is committed, nothing else changes except the drained
pending buffer, and once a target later becomes active the committed lines
derive only from the residual pending buffer and newly delivered bytes —
dropped lines never reappear. -/
theorem no_target_drops_lines (s : EngineState) (chunk : List Char)
    (h : s.activeIC = none) :
    (onCommitReadable s chunk).committed = s.committed ∧
    (onCommitReadable s chunk).sent = s.sent ∧
    (onCommitReadable s chunk).activeIC = none ∧
    (onCommitReadable s chunk).toggleKeys = s.toggleKeys ∧
    (onCommitReadable s chunk).pending = (processChunk s.pending chunk).2 ∧
    (∀ (ic : ICtx) (chunks2 : List (List Char)),
      (readEvents (activate (onCommitReadable s chunk) ic) chunks2).committed =
        s.committed ++ commitsOf (some ic)
          (processChunk (onCommitReadable s chunk).pending chunks2.flatten).1) := by
  have he := onCommitReadable_eq s chunk
  refine ⟨?_, ?_, ?_, ?_, ?_, ?_⟩
  · rw [he]
    simp [h, commitsOf]
  · rw [he]
  · rw [he]
    exact h
  · rw [he]
  · rw [he]
  · intro ic chunks2
    have hpend : findNl (activate (onCommitReadable s chunk) ic).pending = none := by
      simp only [activate, he]
      exact findNl_processChunk_snd _ _
    rw [readEvents_eq chunks2 _ hpend, onCommitReadable_eq]
    simp only [activate, he]
    simp [h, commitsOf]

/-- Witness for `no_target_drops_lines`: a complete line arriving with no
target is not committed and does not reappear after activation. -/
theorem no_target_drops_lines_witness :
    (onCommitReadable (initEngine defaultHotkeys) "lost\n".toList).committed
        = (initEngine defaultHotkeys).committed ∧
    (∀ (ic : ICtx) (chunks2 : List (List Char)),
      (readEvents (activate (onCommitReadable (initEngine defaultHotkeys)
          "lost\n".toList) ic) chunks2).committed =
        (initEngine defaultHotkeys).committed ++ commitsOf (some ic)
          (processChunk (onCommitReadable (initEngine defaultHotkeys)
              "lost\n".toList).pending chunks2.flatten).1) :=
  ⟨(no_target_drops_lines (initEngine defaultHotkeys) "lost\n".toList rfl).1,
   (no_target_drops_lines (initEngine defaultHotkeys) "lost\n".toList rfl).2.2.2.2.2⟩

/-- C6: each extracted candidate line has a trailing carriage return
stripped and is skipped when empty after stripping: "hello\r\n" commits
"hello", and "a\n\nb\n" commits exactly "a" then "b" with the empty line
between them committing nothing. -/
theorem line_postprocessing :
    (onCommitReadable (activate (initEngine defaultHotkeys) 0)
        "hello\r\n".toList).committed = [(0, "hello".toList)] ∧
    (onCommitReadable (activate (initEngine defaultHotkeys) 0)
        "a\n\nb\n".toList).committed
      = [(0, "a".toList), (0, "b".toList)] ∧
    (∀ l : List Char, stripCR (l ++ ['\r']) = l) ∧
    (∀ s : EngineState, commitLine s [] = s) := by
  refine ⟨?_, ?_, ?_, ?_⟩
  · simp only [onCommitReadable_eq, processChunk, drain_eq_splitNl]
    decide
  · simp only [onCommitReadable_eq, processChunk, drain_eq_splitNl]
    decide
  · intro l
    simp [stripCR, List.getLast?_concat, List.dropLast_concat]
  · intro s
    rfl

/-- C7: a trailing partial line with no terminating newline is never
committed and remains in the pending buffer unchanged; after each
invocation of the read-event handler the pending buffer contains no newline
character. -/
theorem pending_buffer_invariant (s : EngineState) (chunk : List Char) :
    findNl (onCommitReadable s chunk).pending = none ∧
    '\n' ∉ (onCommitReadable s chunk).pending ∧
    (findNl (s.pending ++ chunk) = none →
      (onCommitReadable s chunk).pending = s.pending ++ chunk ∧
      (onCommitReadable s chunk).committed = s.committed) := by
  have h1 : (onCommitReadable s chunk).pending = (processChunk s.pending chunk).2 := by
    rw [onCommitReadable_eq]
  refine ⟨?_, ?_, ?_⟩
  · rw [h1]
    exact findNl_processChunk_snd _ _
  · rw [h1]
    have hn := findNl_processChunk_snd s.pending chunk
    rw [findNl_eq_none_iff] at hn
    exact hn
  · intro h
    have hp : processChunk s.pending chunk = ([], s.pending ++ chunk) := by
      simp [processChunk, drain_eq_splitNl, splitNl_of_findNl_none h]
    rw [onCommitReadable_eq, hp]
    constructor
    · rfl
    · cases a : s.activeIC <;> simp [commitsOf]

/-- Witness for `pending_buffer_invariant` at a chunk with no newline. -/
theorem pending_buffer_invariant_witness :
    (onCommitReadable (initEngine defaultHotkeys) "frag".toList).pending
        = (initEngine defaultHotkeys).pending ++ "frag".toList ∧
    (onCommitReadable (initEngine defaultHotkeys) "frag".toList).committed
        = (initEngine defaultHotkeys).committed :=
  (pending_buffer_invariant (initEngine defaultHotkeys)
    "frag".toList).2.2 (by decide)

/-- C8: provisioning succeeds as a no-op when a FIFO already exists at the
path (calling it twice in a row leaves the channel type intact the second
time); a wrong-kind object is removed and replaced by a FIFO with
owner-only read/write permission; creation failing with `EEXIST` still
counts as success; any other creation failure returns failure. -/
theorem ensureFifo_spec :
    (∀ (m : Nat) (inj : Option MkErr),
      ensureFifo (some (FsObj.fifo m)) inj = (true, some (FsObj.fifo m))) ∧
    (∀ (obj : Option FsObj) (inj2 : Option MkErr),
      ensureFifo ((ensureFifo obj none).2) inj2
        = (true, (ensureFifo obj none).2)) ∧
    ensureFifo (some FsObj.other) none = (true, some (FsObj.fifo 0o600)) ∧
    (∀ obj : Option FsObj, (ensureFifo obj (some MkErr.eexist)).1 = true) ∧
    ensureFifo none (some MkErr.eother) = (false, none) ∧
    ensureFifo (some FsObj.other) (some MkErr.eother) = (false, none) := by
  refine ⟨fun m inj => rfl, ?_, rfl, ?_, rfl, rfl⟩
  · intro obj inj2
    rcases obj with _ | o
    · rfl
    · rcases o with m | _ <;> rfl
  · intro obj
    rcases obj with _ | o
    · rfl
    · rcases o with m | _ <;> rfl

/-- C9: command sending is fire-and-forget: a failed open returns normally
with no write attempt and no error propagated; a successful open makes
exactly one write attempt delivering the token bytes followed by a single
newline, the write's result changes nothing, and the descriptor is closed
regardless. -/
theorem sendCommand_spec (writeRes : Int) (tok : List Char) :
    sendCommand false writeRes (tok ++ ['\n'])
        = { writes := [], closed := false } ∧
    (sendCommand true writeRes (tok ++ ['\n'])).writes = [tok ++ ['\n']] ∧
    (sendCommand true writeRes (tok ++ ['\n'])).closed = true ∧
    (∀ w1 w2 : Int, sendCommand true w1 (tok ++ ['\n'])
        = sendCommand true w2 (tok ++ ['\n'])) ∧
    commandTokenLine = "command".toList ++ ['\n'] ∧
    toggleTokenLine = "toggle".toList ++ ['\n'] := by
  refine ⟨rfl, rfl, rfl, fun w1 w2 => rfl, by decide, by decide⟩

/-- C10: a focus-lost notification for a context other than the current
target leaves the whole state unchanged; a target-reset notification
changes no state at all; readable events and key-releases never change the
active-target reference; focus-gained, key-press, and a matching focus-lost
notification do modify it. -/
theorem focus_notification_effects (s : EngineState) (ic : ICtx) :
    (s.activeIC ≠ some ic → deactivate s ic = s) ∧
    reset s = s ∧
    (∀ chunk, (onCommitReadable s chunk).activeIC = s.activeIC) ∧
    (∀ key, (keyEvent s ic key true).1 = s) ∧
    (activate s ic).activeIC = some ic ∧
    (s.activeIC = some ic → deactivate s ic = { s with activeIC := none }) ∧
    (∀ key, ((keyEvent s ic key false).1).activeIC = some ic) := by
  refine ⟨?_, rfl, ?_, fun key => rfl, rfl, ?_, ?_⟩
  · intro h
    simp [deactivate, h]
  · intro chunk
    rw [onCommitReadable_eq]
  · intro h
    simp [deactivate, h]
  · intro key
    by_cases hc : key = commandModeKey
    · simp [keyEvent, hc]
    · by_cases hm : key ∈ s.toggleKeys <;> simp [keyEvent, hc, hm]

/-- Witness for `focus_notification_effects`: an unrelated focus-lost
notification keeps the target, a matching one clears it. -/
theorem focus_notification_effects_witness :
    deactivate (activate (initEngine defaultHotkeys) 4) 9
        = activate (initEngine defaultHotkeys) 4 ∧
    deactivate (activate (initEngine defaultHotkeys) 4) 4
        = { activate (initEngine defaultHotkeys) 4 with activeIC := none } :=
  ⟨(focus_notification_effects (activate (initEngine defaultHotkeys) 4) 9).1
      (by decide),
   (focus_notification_effects (activate (initEngine defaultHotkeys) 4) 4).2.2.2.2.2.1
      rfl⟩

end Asrime
